import Mathlib

/-!
Verification of the HelmPack chart bundler (src/helmpack.py).

The Python source is shallowly embedded: Python strings are lists of
characters, Python dict/list operations become explicit list functions with
the same semantics, and the external collaborators (helm rendering, the
container runtime, the registry) are modelled as oracle parameters at the
call boundary, exactly where the source invokes them.  Every definition
below names the source function it embeds.
-/

set_option autoImplicit false

/-- Python strings are modelled as lists of characters. -/
abbrev Str := List Char

/-- ASCII whitespace stripped by Python `str.strip()` (space, tab, newline,
carriage return, vertical tab, form feed). -/
def isWs (c : Char) : Bool :=
  c == ' ' || c == '\t' || c == '\n' || c == '\r' || c == Char.ofNat 11 || c == Char.ofNat 12

/-- The quote characters stripped by `.strip('"\'')` in
`_parse_image_reference` (double quote, apostrophe). -/
def isQuote (c : Char) : Bool :=
  c == Char.ofNat 34 || c == Char.ofNat 39

/-- Python `s.strip(chars)`: remove the longest run of characters satisfying
`q` from both ends of the string. -/
def stripSet (q : Char → Bool) (l : Str) : Str :=
  ((l.dropWhile q).reverse.dropWhile q).reverse

/-- The cleaning step `image_ref.strip().strip('"\'')` of
`_parse_image_reference` (helmpack.py line 375). -/
def clean (l : Str) : Str := stripSet isQuote (stripSet isWs l)

/-- Python `s.split(sep)` for a single separator character: always returns a
non-empty list of (possibly empty) groups. -/
def splitSep (sep : Char) : Str → List Str
  | [] => [[]]
  | c :: cs =>
    match splitSep sep cs with
    | [] => [[]]
    | g :: gs => if c == sep then [] :: g :: gs else (c :: g) :: gs

/-- Python `sep.join(parts)` for a single separator character. -/
def joinSep (sep : Char) : List Str → Str
  | [] => []
  | [x] => x
  | x :: y :: r => x ++ sep :: joinSep sep (y :: r)

/-- Python `s.rsplit(sep, 1)` when `sep` occurs in `s`: split at the last
occurrence of `sep`.  When `sep` does not occur the source never calls this
(the call sites are guarded by `':' in last_part`); that case returns
`(s, [])`. -/
def rsplit1 (sep : Char) (l : Str) : Str × Str :=
  match l.reverse.dropWhile (fun c => !(c == sep)) with
  | [] => (l, [])
  | _ :: restTail => (restTail.reverse, (l.reverse.takeWhile (fun c => !(c == sep))).reverse)

/-- Python `s.startswith(p)`. -/
def isPre : Str → Str → Bool
  | [], _ => true
  | _ :: _, [] => false
  | a :: as, b :: bs => a == b && isPre (as) bs

/-- Python `p in s` (contiguous substring containment). -/
def isSub (p : Str) : Str → Bool
  | [] => p.isEmpty
  | c :: cs => isPre p (c :: cs) || isSub p cs

/-- Python `s.replace(old, new)` for non-empty `old`: replace every
left-to-right non-overlapping occurrence; fuelled by the length of the
string, which suffices because each step consumes at least one character. -/
def replaceAllAux : Nat → Str → Str → Str → Str
  | 0, _, _, s => s
  | _ + 1, _, _, [] => []
  | n + 1, old, new, c :: cs =>
    if isPre old (c :: cs) then new ++ replaceAllAux n old new ((c :: cs).drop old.length)
    else c :: replaceAllAux n old new cs

/-- Python `s.replace(old, new)`, including the empty-pattern case where
Python inserts `new` before every character and at the end. -/
def replaceAll (old new s : Str) : Str :=
  match old with
  | [] => new ++ s.flatMap (fun c => c :: new)
  | _ :: _ => replaceAllAux s.length old new s

/-- The constant `'docker.io'` of `_parse_image_reference` (line 390). -/
def DEFAULT_REGISTRY : Str := "docker.io".toList

/-- The constant `'latest'` of `_parse_image_reference` (line 401). -/
def DEFAULT_TAG : Str := "latest".toList

/-- The template-placeholder opener `'\x7b\x7b'`. -/
def LBRACE2 : Str := "\x7b\x7b".toList

/-- The template-placeholder closer `'\x7d\x7d'`. -/
def RBRACE2 : Str := "\x7d\x7d".toList

/-- The `ImageInfo` dataclass of helmpack.py (lines 30-40); `digest` and
`size` are omitted: they stay `None` throughout the code modelled here. -/
structure ImageInfo where
  name : Str
  tag : Str
  registry : Str
  repository : Str
  full_reference : Str
  chart_source : Str
deriving DecidableEq, Repr

/-- The registry/repository-parts split of `_parse_image_reference`
(lines 382-391): the first `/`-segment is the registry iff it contains a
`.` or a `:`, otherwise the registry defaults and every segment is
repository path. -/
def registryAndParts (parts : List Str) : Str × List Str :=
  match parts with
  | [] => (DEFAULT_REGISTRY, [])
  | p0 :: rest =>
    if '.' ∈ p0 ∨ ':' ∈ p0 then (p0, rest) else (DEFAULT_REGISTRY, p0 :: rest)

/-- The repository-part list a raw string leaves after the registry segment
is removed (the list whose emptiness `_parse_image_reference` line 393
tests). -/
def repoPartsOf (s : Str) : List Str :=
  (registryAndParts (splitSep '/' (clean s))).2

/-- `_parse_image_reference` (helmpack.py lines 369-413). -/
def parse_image_reference (image_ref : Str) (chart_source : Str) : Option ImageInfo :=
  if image_ref.isEmpty || isPre LBRACE2 image_ref then none
  else
    let ir := clean image_ref
    if ir.isEmpty || isSub LBRACE2 ir || isSub RBRACE2 ir then none
    else
      match registryAndParts (splitSep '/' ir) with
      | (_, []) => none
      | (registry, r0 :: rtl) =>
        let last := (r0 :: rtl).getLast (List.cons_ne_nil r0 rtl)
        let st := if ':' ∈ last then rsplit1 ':' last else (last, DEFAULT_TAG)
        some { name := st.1, tag := st.2, registry := registry,
               repository := joinSep '/' ((r0 :: rtl).dropLast ++ [st.1]),
               full_reference := ir, chart_source := chart_source }

/-- One `unique_images[img.full_reference] = img` step of `_discover_images`
(line 214): Python dict assignment keeps the first-insertion position of an
existing key and overwrites its value, otherwise appends. -/
def insertImage (acc : List ImageInfo) (img : ImageInfo) : List ImageInfo :=
  if acc.any (fun i => i.full_reference == img.full_reference) then
    acc.map (fun i => if i.full_reference == img.full_reference then img else i)
  else acc ++ [img]

/-- The deduplication loop of `_discover_images` (lines 212-216):
`unique_images = {}`, one dict assignment per candidate, then
`list(unique_images.values())`. -/
def dedupImages (images : List ImageInfo) : List ImageInfo :=
  images.foldl insertImage []

/-- `_extract_images_from_templates` (lines 263-292) at the aggregation
level: when `helm template` succeeds (`rendered = some out`) its recursive
scan is returned; on `CalledProcessError` (`rendered = none`) the manual
textual fallback `_parse_templates_manually` is returned instead. -/
def extract_images_from_templates (rendered : Option (List ImageInfo))
    (fallback : List ImageInfo) : List ImageInfo :=
  match rendered with
  | some imgs => imgs
  | none => fallback

/-- The candidate concatenation of `_discover_images` (lines 200-209):
annotation-scanner output, then template-scanner output (rendered or
fallback), then values-scanner output, in statement order. -/
def discover_candidates (declared : List ImageInfo) (rendered : Option (List ImageInfo))
    (fallback : List ImageInfo) (valuesImgs : List ImageInfo) : List ImageInfo :=
  declared ++ extract_images_from_templates rendered fallback ++ valuesImgs

/-- `_discover_images` (lines 196-219): concatenate the scanners' candidate
lists, then deduplicate by `full_reference` with dict last-write-wins. -/
def discover_images (declared : List ImageInfo) (rendered : Option (List ImageInfo))
    (fallback : List ImageInfo) (valuesImgs : List ImageInfo) : List ImageInfo :=
  dedupImages (discover_candidates declared rendered fallback valuesImgs)

/-- A resolved chart node with the raw per-node scanner outputs of its own
sources and its already-resolved dependency subtrees, in dependency order. -/
inductive ScanTree where
  | node (declared : List ImageInfo) (rendered : Option (List ImageInfo))
      (fallback : List ImageInfo) (valuesImgs : List ImageInfo)
      (deps : List ScanTree)

/-- List concatenation of the per-dependency image lists (`all_images.extend`
loop of `analyze_chart`, lines 100-101). -/
def concatAll : List (List ImageInfo) → List ImageInfo
  | [] => []
  | l :: ls => l ++ concatAll ls

mutual
/-- The image list `analyze_chart` (lines 72-109) computes for a node: the
node's own deduplicated `_discover_images` result, followed by each
dependency's (already transitively complete) image list in dependency
order. -/
def analyze_images : ScanTree → List ImageInfo
  | .node d r f v deps => discover_images d r f v ++ analyze_images_list deps

/-- The `for dep in dependencies: all_images.extend(dep.images)` loop of
`analyze_chart`. -/
def analyze_images_list : List ScanTree → List ImageInfo
  | [] => []
  | t :: ts => analyze_images t ++ analyze_images_list ts
end

/-- `_generate_harbor_reference` (helmpack.py lines 656-670): keep only the
final `/`-segment of the original reference, split its tag at the last `:`
(defaulting to `latest`), and rebuild under the target host and project. -/
def generate_harbor_reference (harbor_host : Str) (original_ref : Str)
    (target_project : Str) : Str :=
  let parts := splitSep '/' original_ref
  let last := parts.getLastD []
  let rt := if ':' ∈ last then rsplit1 ':' last else (last, DEFAULT_TAG)
  harbor_host ++ '/' :: (target_project ++ '/' :: (rt.1 ++ ':' :: rt.2))

/-- Modelled from the spec: the relocation target formula of §4.6 step 3 and
§3 RelocationMapping — target registry host, `/`, target project, `/`, the
original reference's final path segment with its tag stripped, `:`, the
original tag (defaulting to `latest` when the final segment carries none). -/
def harborRefSpec (harbor_host : Str) (target_project : Str) (original_ref : Str) : Str :=
  let finalSeg := (splitSep '/' original_ref).getLastD []
  let stem := if ':' ∈ finalSeg then (rsplit1 ':' finalSeg).1 else finalSeg
  let tag := if ':' ∈ finalSeg then (rsplit1 ':' finalSeg).2 else DEFAULT_TAG
  harbor_host ++ '/' :: target_project ++ '/' :: stem ++ ':' :: tag

/-- `_relocate_images_in_file` (lines 691-709) on a file's text content: for
each mapping entry in order, when the key occurs in the current content,
replace every occurrence and mark the file modified; the file is rewritten
iff the flag ends up true. -/
def relocate_in_content (mapping : List (Str × Str)) (content : Str) : Str × Bool :=
  mapping.foldl
    (fun acc kv => if isSub kv.1 acc.1 then (replaceAll kv.1 kv.2 acc.1, true) else acc)
    (content, false)

/-- The `ChartInfo` dataclass (lines 42-49). -/
inductive ChartInfo where
  | mk (name : Str) (version : Str) (path : Str)
      (dependencies : List ChartInfo) (images : List ImageInfo)

/-- Field accessor for `ChartInfo.name`. -/
def ChartInfo.name : ChartInfo → Str
  | .mk n _ _ _ _ => n

/-- Field accessor for `ChartInfo.version`. -/
def ChartInfo.version : ChartInfo → Str
  | .mk _ v _ _ _ => v

/-- Field accessor for `ChartInfo.images`. -/
def ChartInfo.images : ChartInfo → List ImageInfo
  | .mk _ _ _ _ imgs => imgs

/-- The archive filename `_pull_and_save_images` (line 506) derives from a
full reference: every `/` and `:` replaced by `_`, suffixed `.tar`. -/
def sanitize_filename (ref : Str) : Str :=
  (ref.map fun c => if c == '/' || c == ':' then '_' else c) ++ ".tar".toList

/-- `_pull_and_save_images` (lines 487-519): with no docker client nothing is
pulled; otherwise each image whose per-image pull/save block succeeds (the
`pullOk` oracle; `ImageNotFound`, `APIError` and any other exception are
caught and skipped) contributes one saved archive, recorded as
(full reference, archive filename). -/
def pull_and_save_images (dockerAvail : Bool) (pullOk : Str → Bool)
    (images : List ImageInfo) : List (Str × Str) :=
  if dockerAvail then
    images.filterMap fun img =>
      if pullOk img.full_reference then
        some (img.full_reference, sanitize_filename img.full_reference)
      else none
  else []

/-- The bundle `create_bundle` produces: its name, the manifest's image list
(serialized to `bundle.yaml` before any pull happens), and the saved image
archives. -/
structure BundleModel where
  bundleName : Str
  manifestImages : List ImageInfo
  archives : List (Str × Str)
deriving Repr

/-- `create_bundle` (lines 431-485): the manifest is written from
`chart_info.images` at line 463/469, before the pull loop at line 478, so it
is independent of pull outcomes; archives are produced only when
`pull_images` is set and the image list is non-empty (Python truthiness at
line 477). -/
def create_bundle (dockerAvail : Bool) (pullOk : Str → Bool) (chart : ChartInfo)
    (pull_images : Bool) : BundleModel :=
  { bundleName := chart.name ++ "-".toList ++ chart.version ++ ".helmpack.tgz".toList,
    manifestImages := chart.images,
    archives :=
      if pull_images ∧ chart.images ≠ [] then
        pull_and_save_images dockerAvail pullOk chart.images
      else [] }

/-- `_import_images` (lines 578-631): returns the list of Harbor references
actually pushed.  Early returns: no docker client, no `images/` directory,
or a registry login failure (the login exception is caught at lines 598-600
and the function returns normally).  Otherwise each manifest image whose
archive file exists is loaded, tagged and pushed. -/
def import_images_step (dockerAvail imagesDirExists loginOk : Bool)
    (archiveExists : Str → Bool) (harbor_host target_project : Str)
    (imgs : List Str) : List Str :=
  if !dockerAvail then []
  else if !imagesDirExists then []
  else if !loginOk then []
  else imgs.filterMap fun ref =>
    if archiveExists (sanitize_filename ref) then
      some (generate_harbor_reference harbor_host ref target_project)
    else none

/-- What one `import_bundle` run did after its manifest loaded. -/
structure ImportOutcome where
  pushed : List Str
  relocated : Bool
  chartPushAttempted : Bool
deriving Repr

/-- `import_bundle` (lines 545-576) after the manifest is loaded: it runs
`_import_images` and then, unconditionally, `_import_chart` (lines 633-654),
which relocates the chart text and attempts the chart push whenever the
bundle's `chart/` directory exists. -/
def import_bundle_model (dockerAvail imagesDirExists loginOk chartDirExists : Bool)
    (archiveExists : Str → Bool) (harbor_host target_project : Str)
    (imgs : List Str) : ImportOutcome :=
  { pushed := import_images_step dockerAvail imagesDirExists loginOk archiveExists
      harbor_host target_project imgs,
    relocated := chartDirExists,
    chartPushAttempted := chartDirExists }

/-- A concrete image used by counterexamples and witnesses. -/
def imgA : ImageInfo :=
  { name := "a".toList, tag := "1".toList, registry := DEFAULT_REGISTRY,
    repository := "a".toList, full_reference := "a:1".toList,
    chart_source := "c".toList }

/-- A concrete image, distinct from `imgA`, used by counterexamples and
witnesses. -/
def imgB : ImageInfo :=
  { name := "b".toList, tag := "2".toList, registry := DEFAULT_REGISTRY,
    repository := "b".toList, full_reference := "b:2".toList,
    chart_source := "c".toList }

/-- A concrete two-image chart used by witnesses. -/
def chartW : ChartInfo :=
  ChartInfo.mk "c".toList "1".toList "p".toList [] [imgA, imgB]

/-- A concrete pull oracle used by witnesses: only `imgB`'s reference pulls
successfully. -/
def pullOkW : Str → Bool := fun r => r == "b:2".toList

/-! ### Lemmas about splitting and joining -/

theorem splitSep_ne_nil (sep : Char) (l : Str) : splitSep sep l ≠ [] := by
  cases l with
  | nil => simp [splitSep]
  | cons c cs =>
    simp only [splitSep]
    cases h : splitSep sep cs with
    | nil => simp
    | cons g gs =>
      by_cases hc : c == sep <;> simp [hc]

theorem joinSep_cons_of_ne_nil (sep : Char) (x : Str) (r : List Str) (h : r ≠ []) :
    joinSep sep (x :: r) = x ++ sep :: joinSep sep r := by
  cases r with
  | nil => exact absurd rfl h
  | cons y ys => rfl

theorem joinSep_splitSep (sep : Char) (l : Str) : joinSep sep (splitSep sep l) = l := by
  induction l with
  | nil => rfl
  | cons c cs ih =>
    simp only [splitSep]
    cases h : splitSep sep cs with
    | nil => exact absurd h (splitSep_ne_nil sep cs)
    | cons g gs =>
      rw [h] at ih
      by_cases hc : c == sep
      · have hce : c = sep := by simpa using hc
        simp only [hc, if_pos, joinSep]
        rw [ih, hce]
        simp
      · simp only [hc, if_neg, Bool.false_eq_true, not_false_iff]
        cases gs with
        | nil => simpa [joinSep] using congrArg (c :: ·) ih
        | cons g2 gs2 =>
          simp only [joinSep] at ih ⊢
          rw [List.cons_append, ih]

theorem joinSep_append_last (sep : Char) (xs : List Str) (y z : Str) :
    joinSep sep (xs ++ [y ++ z]) = joinSep sep (xs ++ [y]) ++ z := by
  induction xs with
  | nil => rfl
  | cons x xs ih =>
    have h1 : xs ++ [y ++ z] ≠ [] := by simp
    have h2 : xs ++ [y] ≠ [] := by simp
    rw [List.cons_append, List.cons_append, joinSep_cons_of_ne_nil sep x _ h1,
      joinSep_cons_of_ne_nil sep x _ h2, ih]
    simp

theorem dropWhile_ne_of_mem (sep : Char) (r : Str) (h : sep ∈ r) :
    ∃ t, r.dropWhile (fun c => !(c == sep)) = sep :: t := by
  induction r with
  | nil => cases h
  | cons c cs ih =>
    by_cases hc : c = sep
    · subst hc
      refine ⟨cs, ?_⟩
      simp [List.dropWhile]
    · have hm : sep ∈ cs := by
        cases h with
        | head => exact absurd rfl hc
        | tail _ h' => exact h'
      obtain ⟨t, ht⟩ := ih hm
      refine ⟨t, ?_⟩
      have hb : (fun c => !(c == sep)) c = true := by simp [hc]
      simp only [List.dropWhile, hb]
      exact ht

theorem rsplit1_spec (sep : Char) (l : Str) (h : sep ∈ l) :
    (rsplit1 sep l).1 ++ sep :: (rsplit1 sep l).2 = l := by
  have hrev : sep ∈ l.reverse := List.mem_reverse.mpr h
  obtain ⟨t, ht⟩ := dropWhile_ne_of_mem sep l.reverse hrev
  have hsplit : l.reverse.takeWhile (fun c => !(c == sep)) ++
      l.reverse.dropWhile (fun c => !(c == sep)) = l.reverse :=
    List.takeWhile_append_dropWhile (fun c => !(c == sep)) l.reverse
  have key : (l.reverse.takeWhile (fun c => !(c == sep)) ++ (sep :: t)).reverse
      = t.reverse ++ sep :: (l.reverse.takeWhile (fun c => !(c == sep))).reverse := by
    simp [List.reverse_append]
  simp only [rsplit1, ht]
  rw [← key, ← ht, hsplit, List.reverse_reverse]

/-! ### Lemmas about substring containment and stripping -/

theorem isPre_iff (p l : Str) : isPre p l = true ↔ ∃ v, l = p ++ v := by
  induction p generalizing l with
  | nil => simp [isPre]
  | cons a as ih =>
    cases l with
    | nil =>
      simp only [isPre, List.cons_append]
      constructor
      · intro h; cases h
      · rintro ⟨v, hv⟩; cases hv
    | cons b bs =>
      simp only [isPre, Bool.and_eq_true, beq_iff_eq, ih, List.cons_append]
      constructor
      · rintro ⟨rfl, v, rfl⟩; exact ⟨v, rfl⟩
      · rintro ⟨v, hv⟩
        injection hv with h1 h2
        exact ⟨h1.symm, v, h2⟩

theorem isSub_iff (p l : Str) : isSub p l = true ↔ ∃ u v, l = u ++ p ++ v := by
  induction l with
  | nil =>
    simp only [isSub, List.isEmpty_iff]
    constructor
    · rintro rfl; exact ⟨[], [], rfl⟩
    · rintro ⟨u, v, huv⟩
      rcases List.append_eq_nil.mp (List.append_eq_nil.mp huv.symm).1 with ⟨-, h2⟩
      exact h2
  | cons c cs ih =>
    simp only [isSub, Bool.or_eq_true, isPre_iff, ih]
    constructor
    · rintro (⟨v, hv⟩ | ⟨u, v, huv⟩)
      · exact ⟨[], v, by simp [hv]⟩
      · exact ⟨c :: u, v, by simp [huv]⟩
    · rintro ⟨u, v, huv⟩
      cases u with
      | nil => exact Or.inl ⟨v, by simpa using huv⟩
      | cons b bs =>
        right
        injection huv with h1 h2
        exact ⟨bs, v, h2⟩

theorem isSub_of_isPre (p l : Str) (h : isPre p l = true) : isSub p l = true := by
  obtain ⟨v, hv⟩ := (isPre_iff p l).mp h
  exact (isSub_iff p l).mpr ⟨[], v, by simp [hv]⟩

theorem isSub_reverse (p l : Str) : isSub p.reverse l.reverse = true ↔ isSub p l = true := by
  simp only [isSub_iff]
  constructor
  · rintro ⟨u, v, huv⟩
    refine ⟨v.reverse, u.reverse, ?_⟩
    have := congrArg List.reverse huv
    simpa [List.reverse_append, List.append_assoc] using this
  · rintro ⟨u, v, huv⟩
    exact ⟨v.reverse, u.reverse, by simp [huv, List.reverse_append, List.append_assoc]⟩

theorem isSub_singleton (c : Char) (l : Str) : isSub [c] l = true ↔ c ∈ l := by
  rw [isSub_iff]
  constructor
  · rintro ⟨u, v, rfl⟩; simp
  · intro h
    obtain ⟨s, t, rfl⟩ := List.append_of_mem h
    exact ⟨s, t, by simp⟩

theorem isSub_nil_left (l : Str) : isSub [] l = true := by
  cases l <;> simp [isSub, isPre]

theorem isSub_dropWhile (q : Char → Bool) (p l : Str) (hp : ∀ c ∈ p, q c = false)
    (h : isSub p l = true) : isSub p (l.dropWhile q) = true := by
  induction l with
  | nil => exact h
  | cons c cs ih =>
    by_cases hq : q c = true
    · rw [List.dropWhile_cons_of_pos hq]
      apply ih
      rcases Bool.or_eq_true _ _ |>.mp (by simpa [isSub] using h) with hpre | hsub
      · obtain ⟨v, hv⟩ := (isPre_iff p (c :: cs)).mp hpre
        cases p with
        | nil => exact isSub_nil_left cs
        | cons a as =>
          injection hv with h1 h2
          have hqa : q a = false := hp a (List.mem_cons_self a as)
          rw [← h1] at hqa
          simp [hqa] at hq
      · exact hsub
    · rwa [List.dropWhile_cons_of_neg hq]

theorem stripSet_decomp (q : Char → Bool) (l : Str) :
    ∃ u v, l = u ++ stripSet q l ++ v := by
  have h1 : l.takeWhile q ++ l.dropWhile q = l := List.takeWhile_append_dropWhile q l
  have h2 : (l.dropWhile q).reverse.takeWhile q ++ (l.dropWhile q).reverse.dropWhile q
      = (l.dropWhile q).reverse := List.takeWhile_append_dropWhile q (l.dropWhile q).reverse
  have h2' := congrArg List.reverse h2
  rw [List.reverse_append, List.reverse_reverse] at h2'
  refine ⟨l.takeWhile q, ((l.dropWhile q).reverse.takeWhile q).reverse, ?_⟩
  have hs : stripSet q l = ((l.dropWhile q).reverse.dropWhile q).reverse := rfl
  rw [hs]
  calc l = l.takeWhile q ++ l.dropWhile q := h1.symm
    _ = l.takeWhile q ++ (((l.dropWhile q).reverse.dropWhile q).reverse
          ++ ((l.dropWhile q).reverse.takeWhile q).reverse) := by rw [h2']
    _ = _ := by rw [List.append_assoc]

theorem clean_decomp (l : Str) : ∃ u v, l = u ++ clean l ++ v := by
  obtain ⟨u1, v1, h1⟩ := stripSet_decomp isWs l
  obtain ⟨u2, v2, h2⟩ := stripSet_decomp isQuote (stripSet isWs l)
  refine ⟨u1 ++ u2, v2 ++ v1, ?_⟩
  conv_lhs => rw [h1, h2]
  simp [clean, List.append_assoc]

theorem isSub_of_isSub_middle (p x m y : Str) (h : isSub p m = true) :
    isSub p (x ++ m ++ y) = true := by
  obtain ⟨u, v, rfl⟩ := (isSub_iff p m).mp h
  refine (isSub_iff p _).mpr ⟨x ++ u, v ++ y, by simp [List.append_assoc]⟩

theorem isSub_of_isSub_clean (p l : Str) (h : isSub p (clean l) = true) :
    isSub p l = true := by
  obtain ⟨u, v, hl⟩ := clean_decomp l
  rw [hl]
  exact isSub_of_isSub_middle p u (clean l) v h

theorem isSub_stripSet (q : Char → Bool) (p l : Str) (hp : ∀ c ∈ p, q c = false)
    (h : isSub p l = true) : isSub p (stripSet q l) = true := by
  have h1 : isSub p (l.dropWhile q) = true := isSub_dropWhile q p l hp h
  have h2 : isSub p.reverse (l.dropWhile q).reverse = true := (isSub_reverse p _).mpr h1
  have hp' : ∀ c ∈ p.reverse, q c = false := fun c hc => hp c (List.mem_reverse.mp hc)
  have h3 : isSub p.reverse ((l.dropWhile q).reverse.dropWhile q) = true :=
    isSub_dropWhile q p.reverse _ hp' h2
  have h4 := (isSub_reverse p.reverse _).mpr h3
  simpa [stripSet] using h4

theorem isSub_clean (p l : Str)
    (hp : ∀ c ∈ p, isWs c = false ∧ isQuote c = false)
    (h : isSub p l = true) : isSub p (clean l) = true := by
  have h1 : isSub p (stripSet isWs l) = true :=
    isSub_stripSet isWs p l (fun c hc => (hp c hc).1) h
  exact isSub_stripSet isQuote p _ (fun c hc => (hp c hc).2) h1

theorem mem_clean_of_mem (c : Char) (l : Str)
    (hc : isWs c = false ∧ isQuote c = false) (h : c ∈ l) : c ∈ clean l := by
  have h1 : isSub [c] l = true := (isSub_singleton c l).mpr h
  have hp : ∀ d ∈ [c], isWs d = false ∧ isQuote d = false := by
    intro d hd
    have hd' : d = c := List.mem_singleton.mp hd
    rw [hd']
    exact hc
  exact (isSub_singleton c (clean l)).mp (isSub_clean [c] l hp h1)

theorem mem_of_mem_clean (c : Char) (l : Str) (h : c ∈ clean l) : c ∈ l := by
  obtain ⟨u, v, hl⟩ := clean_decomp l
  rw [hl]
  simp [h]

theorem splitSep_of_not_mem (sep : Char) (l : Str) (h : sep ∉ l) :
    splitSep sep l = [l] := by
  induction l with
  | nil => rfl
  | cons c cs ih =>
    have hcs : sep ∉ cs := fun hm => h (List.mem_cons_of_mem c hm)
    have hc : ¬(c == sep) = true := by
      simp only [beq_iff_eq]
      intro hce
      exact h (hce ▸ List.mem_cons_self c cs)
    simp only [splitSep, ih hcs]
    simp [hc]

/-! ### Lemmas about dict-style deduplication -/

theorem replRef (img i : ImageInfo) :
    ((if i.full_reference == img.full_reference then img else i) : ImageInfo).full_reference
      = i.full_reference := by
  by_cases h : i.full_reference == img.full_reference
  · have he : i.full_reference = img.full_reference := by simpa using h
    simp [h, he]
  · simp [h]

theorem insertImage_pairwise (acc : List ImageInfo) (img : ImageInfo)
    (h : acc.Pairwise (fun a b => a.full_reference ≠ b.full_reference)) :
    (insertImage acc img).Pairwise (fun a b => a.full_reference ≠ b.full_reference) := by
  unfold insertImage
  by_cases hp : acc.any (fun i => i.full_reference == img.full_reference)
  · rw [if_pos hp, List.pairwise_map]
    refine h.imp ?_
    intro a b hab
    rw [replRef img a, replRef img b]
    exact hab
  · rw [if_neg hp, List.pairwise_append]
    refine ⟨h, List.pairwise_singleton _ _, ?_⟩
    intro a ha b hb
    have hb' : b = img := List.mem_singleton.mp hb
    subst hb'
    intro hcon
    apply hp
    rw [List.any_eq_true]
    exact ⟨a, ha, by simp [hcon]⟩

theorem filter_insertImage (acc : List ImageInfo) (x : ImageInfo) (ref : Str)
    (h : acc.Pairwise (fun a b => a.full_reference ≠ b.full_reference)) :
    (insertImage acc x).filter (fun i => i.full_reference == ref)
      = if x.full_reference == ref then [x]
        else acc.filter (fun i => i.full_reference == ref) := by
  unfold insertImage
  by_cases hp : acc.any (fun i => i.full_reference == x.full_reference)
  · rw [if_pos hp]
    rw [List.filter_map]
    have hcomp : ((fun i => i.full_reference == ref) ∘
        (fun i => if i.full_reference == x.full_reference then x else i))
        = (fun i : ImageInfo => i.full_reference == ref) := by
      funext i
      simp only [Function.comp_apply, replRef]
    rw [hcomp]
    by_cases hx : x.full_reference == ref
    · have hxe : x.full_reference = ref := by simpa using hx
      rw [if_pos hx]
      obtain ⟨i0, hi0, hi0r⟩ := List.any_eq_true.mp hp
      have hi0e : i0.full_reference = x.full_reference := by simpa using hi0r
      -- the filter keeps exactly the one stored entry, which maps to x
      have hfil : acc.filter (fun i => i.full_reference == ref) = [i0] := by
        have hmem : i0 ∈ acc.filter (fun i => i.full_reference == ref) :=
          List.mem_filter.mpr ⟨hi0, by simp [hi0e, hxe]⟩
        obtain ⟨u, v, huv⟩ := List.append_of_mem hmem
        have hsub : acc.filter (fun i => i.full_reference == ref) |>.Pairwise
            (fun a b => a.full_reference ≠ b.full_reference) := h.filter _
        rw [huv] at hsub ⊢
        have hu : u = [] := by
          cases u with
          | nil => rfl
          | cons a as =>
            exfalso
            have haf : a ∈ acc.filter (fun i => i.full_reference == ref) := by
              rw [huv]; simp
            have har : a.full_reference = ref := by
              have := (List.mem_filter.mp haf).2
              simpa using this
            have hsub' : List.Pairwise
                (fun x y : ImageInfo => x.full_reference ≠ y.full_reference)
                (a :: (as ++ i0 :: v)) := by simpa using hsub
            have hane := (List.pairwise_cons.mp hsub').1 i0 (by simp)
            exact hane (by rw [har, hi0e, hxe])
        subst hu
        have hv : v = [] := by
          cases v with
          | nil => rfl
          | cons b bs =>
            exfalso
            have hbf : b ∈ acc.filter (fun i => i.full_reference == ref) := by
              rw [huv]; simp
            have hbr : b.full_reference = ref := by
              have := (List.mem_filter.mp hbf).2
              simpa using this
            have hsub' : List.Pairwise
                (fun x y : ImageInfo => x.full_reference ≠ y.full_reference)
                (i0 :: b :: bs) := by simpa using hsub
            have hbne := (List.pairwise_cons.mp hsub').1 b (List.mem_cons_self b bs)
            exact hbne (by rw [hi0e, hxe, hbr])
        subst hv
        rfl
      rw [hfil]
      simp [hi0e]
    · rw [if_neg hx]
      have hid : ∀ i ∈ acc.filter (fun i => i.full_reference == ref),
          (if i.full_reference == x.full_reference then x else i) = i := by
        intro i hi
        have hir : i.full_reference = ref := by
          simpa using (List.mem_filter.mp hi).2
        have hne : ¬(i.full_reference == x.full_reference) = true := by
          simp only [beq_iff_eq, hir]
          intro hc
          exact hx (by simp [hc])
        rw [if_neg hne]
      rw [List.map_congr_left hid]
      exact List.map_id _
  · rw [if_neg hp, List.filter_append]
    by_cases hx : x.full_reference == ref
    · have hxe : x.full_reference = ref := by simpa using hx
      rw [if_pos hx]
      have hnil : acc.filter (fun i => i.full_reference == ref) = [] := by
        rw [List.filter_eq_nil_iff]
        intro i hi hir
        apply hp
        rw [List.any_eq_true]
        have hire : i.full_reference = ref := by simpa using hir
        exact ⟨i, hi, by simp [hire, hxe]⟩
      rw [hnil]
      simp [hx]
    · rw [if_neg hx]
      simp [hx]

theorem foldl_insertImage_filter (l : List ImageInfo) (acc : List ImageInfo) (ref : Str)
    (h : acc.Pairwise (fun a b => a.full_reference ≠ b.full_reference)) :
    (l.foldl insertImage acc).filter (fun i => i.full_reference == ref)
      = match (l.filter (fun i => i.full_reference == ref)).getLast? with
        | some y => [y]
        | none => acc.filter (fun i => i.full_reference == ref) := by
  induction l generalizing acc with
  | nil => rfl
  | cons x xs ih =>
    rw [List.foldl_cons]
    rw [ih (insertImage acc x) (insertImage_pairwise acc x h)]
    cases hxs : (xs.filter (fun i => i.full_reference == ref)).getLast? with
    | some y =>
      have hne : xs.filter (fun i => i.full_reference == ref) ≠ [] := by
        intro hc
        rw [hc] at hxs
        cases hxs
      by_cases hx : x.full_reference == ref
      · rw [List.filter_cons_of_pos (by simpa using hx)]
        cases hf : xs.filter (fun i => i.full_reference == ref) with
        | nil => exact absurd hf hne
        | cons z zs =>
          rw [hf] at hxs
          rw [List.getLast?_cons_cons, hxs]
      · rw [List.filter_cons_of_neg (by simpa using hx), hxs]
    | none =>
      have hnil : xs.filter (fun i => i.full_reference == ref) = [] := by
        simpa [List.getLast?_eq_none_iff] using hxs
      rw [filter_insertImage acc x ref h]
      by_cases hx : x.full_reference == ref
      · rw [List.filter_cons_of_pos (by simpa using hx), hnil, if_pos hx]
        rfl
      · rw [List.filter_cons_of_neg (by simpa using hx), hnil, if_neg hx]
        rfl

theorem dedupImages_filter (l : List ImageInfo) (ref : Str) :
    (dedupImages l).filter (fun i => i.full_reference == ref)
      = ((l.filter (fun i => i.full_reference == ref)).getLast?).toList := by
  unfold dedupImages
  rw [foldl_insertImage_filter l [] ref List.Pairwise.nil]
  cases (l.filter (fun i => i.full_reference == ref)).getLast? <;> rfl

theorem dedupImages_pairwise (l : List ImageInfo) :
    (dedupImages l).Pairwise (fun a b => a.full_reference ≠ b.full_reference) := by
  unfold dedupImages
  have main : ∀ (m acc : List ImageInfo),
      acc.Pairwise (fun a b => a.full_reference ≠ b.full_reference) →
      (m.foldl insertImage acc).Pairwise (fun a b => a.full_reference ≠ b.full_reference) := by
    intro m
    induction m with
    | nil => intro acc h; exact h
    | cons x xs ih =>
      intro acc h
      rw [List.foldl_cons]
      exact ih (insertImage acc x) (insertImage_pairwise acc x h)
  exact main l [] List.Pairwise.nil

/-! ### Remaining helper lemmas -/

theorem analyze_images_list_eq (ts : List ScanTree) :
    analyze_images_list ts = concatAll (ts.map analyze_images) := by
  induction ts with
  | nil => rfl
  | cons t ts ih => simp only [analyze_images_list, List.map_cons, concatAll, ih]

theorem countP_concatAll (p : ImageInfo → Bool) (ls : List (List ImageInfo)) :
    (concatAll ls).countP p = (ls.map (fun l => l.countP p)).sum := by
  induction ls with
  | nil => rfl
  | cons l ls ih => simp [concatAll, List.countP_append, ih]

theorem dedupImages_countP_le_one (l : List ImageInfo) (ref : Str) :
    (dedupImages l).countP (fun i => i.full_reference == ref) ≤ 1 := by
  rw [List.countP_eq_length_filter, dedupImages_filter]
  cases (l.filter (fun i => i.full_reference == ref)).getLast? <;> simp

theorem relocate_foldl_true (m : List (Str × Str)) (acc : Str × Bool) (h : acc.2 = true) :
    (m.foldl
      (fun acc kv => if isSub kv.1 acc.1 then (replaceAll kv.1 kv.2 acc.1, true) else acc)
      acc).2 = true := by
  induction m generalizing acc with
  | nil => exact h
  | cons kv m ih =>
    rw [List.foldl_cons]
    by_cases hs : isSub kv.1 acc.1 = true
    · rw [if_pos hs]
      exact ih _ rfl
    · rw [if_neg hs]
      exact ih _ h

/-! ### Claim theorems -/

/-- C1: for every chart node, after the scanners' candidate lists are
concatenated, `_discover_images` deduplicates by `fullReference`: for each
reference string the result holds exactly one entry — the filter of the
result by any reference equals the singleton of the latest-ordered matching
candidate (empty when no candidate matches) — and all surviving entries
carry pairwise distinct reference strings. -/
theorem discover_images_dedup_last_wins (declared : List ImageInfo)
    (rendered : Option (List ImageInfo)) (fallback valuesImgs : List ImageInfo)
    (ref : Str) :
    (discover_images declared rendered fallback valuesImgs).filter
        (fun i => i.full_reference == ref)
      = ((discover_candidates declared rendered fallback valuesImgs).filter
          (fun i => i.full_reference == ref)).getLast?.toList ∧
    (discover_images declared rendered fallback valuesImgs).Pairwise
      (fun a b => a.full_reference ≠ b.full_reference) :=
  ⟨dedupImages_filter _ ref, dedupImages_pairwise _⟩

/-- C2 counterexample: with no declared-metadata candidates, a failed
rendering, one fallback candidate `imgA` and one raw-configuration
candidate `imgB`, the code concatenates the fallback output *before* the
raw-configuration output — `[imgA, imgB]` — not after it as the claim's
order [declared, rendered, raw-configuration, textual-fallback] would
require (`[imgB, imgA]`). -/
theorem discover_candidates_order_cex :
    discover_candidates [] none [imgA] [imgB] = [imgA, imgB] ∧
      discover_candidates [] none [imgA] [imgB] ≠ [imgB, imgA] := by
  constructor
  · rfl
  · decide

/-- C2 amended: per chart node the candidate lists are concatenated in the
fixed order [declared-metadata, rendered-manifest-or-textual-fallback,
raw-configuration]; the textual fallback runs only when rendering fails and
its output then occupies the rendered-manifest position, ordered *before*
the raw-configuration scanner's output, so under last-write-wins
deduplication a raw-configuration entry overrides a fallback entry with the
same reference string. -/
theorem discover_candidates_order (declared fallback valuesImgs : List ImageInfo) :
    (discover_candidates declared none fallback valuesImgs
        = declared ++ fallback ++ valuesImgs) ∧
    (∀ rOut, discover_candidates declared (some rOut) fallback valuesImgs
        = declared ++ rOut ++ valuesImgs) ∧
    (∀ ref, (discover_images declared none fallback valuesImgs).filter
          (fun i => i.full_reference == ref)
        = ((declared ++ fallback ++ valuesImgs).filter
            (fun i => i.full_reference == ref)).getLast?.toList) := by
  refine ⟨by simp [discover_candidates, extract_images_from_templates, List.append_assoc],
    fun rOut => by simp [discover_candidates, extract_images_from_templates, List.append_assoc],
    fun ref => ?_⟩
  have h := dedupImages_filter (discover_candidates declared none fallback valuesImgs) ref
  have hc : discover_candidates declared none fallback valuesImgs
      = declared ++ fallback ++ valuesImgs := by
    simp [discover_candidates, extract_images_from_templates, List.append_assoc]
  rw [discover_images, h, hc]

/-- C3: a resolved node's final image list is its own deduplicated list
followed by each dependency's (already transitively complete) list appended
in dependency order; per reference string the counts add up across the node
and its dependencies (no cross-node deduplication), while within the node's
own-scan result each reference occurs at most once. -/
theorem analyze_images_spec (d : List ImageInfo) (r : Option (List ImageInfo))
    (f v : List ImageInfo) (deps : List ScanTree) (ref : Str) :
    analyze_images (.node d r f v deps)
        = discover_images d r f v ++ concatAll (deps.map analyze_images) ∧
    (analyze_images (.node d r f v deps)).countP (fun i => i.full_reference == ref)
        = (discover_images d r f v).countP (fun i => i.full_reference == ref)
          + ((deps.map analyze_images).map
              (fun l => l.countP (fun i => i.full_reference == ref))).sum ∧
    (discover_images d r f v).countP (fun i => i.full_reference == ref) ≤ 1 := by
  have h1 : analyze_images (.node d r f v deps)
      = discover_images d r f v ++ concatAll (deps.map analyze_images) := by
    rw [analyze_images, analyze_images_list_eq]
  refine ⟨h1, ?_, dedupImages_countP_le_one _ ref⟩
  rw [h1, List.countP_append, countP_concatAll]

/-- C4: `_generate_harbor_reference` equals the spec formula — target host,
target project, the original reference's final path segment with its tag
split at the last `:` (tag defaulting to `latest`), all intermediate
repository path segments dropped — and maps `myorg/app:2.1` under project
`library` on host `harbor.example.com` to
`harbor.example.com/library/app:2.1`. -/
theorem generate_harbor_reference_spec :
    (∀ host proj orig, generate_harbor_reference host orig proj
        = harborRefSpec host proj orig) ∧
    (∀ host proj r1 r2, (splitSep '/' r1).getLastD [] = (splitSep '/' r2).getLastD [] →
        generate_harbor_reference host r1 proj = generate_harbor_reference host r2 proj) ∧
    generate_harbor_reference "harbor.example.com".toList "myorg/app:2.1".toList
        "library".toList
      = "harbor.example.com/library/app:2.1".toList := by
  refine ⟨?_, ?_, by decide⟩
  · intro host proj orig
    simp only [generate_harbor_reference, harborRefSpec]
    split_ifs with h1 <;> simp [List.append_assoc]
  · intro host proj r1 r2 hlast
    simp only [generate_harbor_reference, hlast]

/-- C4 witness: the flattening conjunct applied concretely — the target
reference ignores the dropped intermediate path segments. -/
theorem generate_harbor_reference_spec_witness :
    generate_harbor_reference "h.io".toList "x/y/app:1".toList "p".toList
      = generate_harbor_reference "h.io".toList "app:1".toList "p".toList :=
  generate_harbor_reference_spec.2.1 "h.io".toList "p".toList
    "x/y/app:1".toList "app:1".toList (by decide)

theorem relocate_foldl_nokey (m : List (Str × Str)) (c : Str)
    (h : ∀ kv ∈ m, isSub kv.1 c = false) :
    m.foldl
        (fun acc kv => if isSub kv.1 acc.1 then (replaceAll kv.1 kv.2 acc.1, true) else acc)
        (c, false) = (c, false) := by
  induction m with
  | nil => rfl
  | cons kv m ih =>
    rw [List.foldl_cons]
    have hkv : isSub kv.1 c = false := h kv (List.mem_cons_self kv m)
    rw [if_neg (by simp [hkv])]
    exact ih (fun kv' h' => h kv' (List.mem_cons_of_mem kv h'))

theorem relocate_foldl_somekey : ∀ (m : List (Str × Str)) (c : Str),
    (∃ kv ∈ m, isSub kv.1 c = true) →
    (m.foldl
        (fun acc kv => if isSub kv.1 acc.1 then (replaceAll kv.1 kv.2 acc.1, true) else acc)
        (c, false)).2 = true := by
  intro m
  induction m with
  | nil =>
    intro c h
    obtain ⟨kv, hm, -⟩ := h
    cases hm
  | cons kv m ih =>
    intro c h
    rw [List.foldl_cons]
    by_cases hkv : isSub kv.1 c = true
    · rw [if_pos (show isSub kv.1 (c, false).1 = true from hkv)]
      exact relocate_foldl_true m _ rfl
    · rw [if_neg (by simpa using hkv)]
      apply ih
      obtain ⟨kv', hm', hs'⟩ := h
      rcases List.mem_cons.mp hm' with heq | hm''
      · rw [heq] at hs'
        exact absurd hs' hkv
      · exact ⟨kv', hm'', hs'⟩

/-- C5 counterexample: under the mapping
`[a -> b, b -> c]` and the one-character file `a`, the code produces `c`
(the second entry rewrites the first entry's output), not `b` — so the
claim that every occurrence of every mapping key is replaced by *that
key's* mapped value fails for cascading mappings. -/
theorem relocate_in_content_cex :
    relocate_in_content [("a".toList, "b".toList), ("b".toList, "c".toList)] "a".toList
        = ("c".toList, true) ∧
      ("c".toList : Str) ≠ "b".toList := by
  constructor
  · decide
  · decide

/-- C5 amended: `_relocate_images_in_file` applies the mapping entries
sequentially, each replacing every occurrence of its key in the
then-current content (so a later entry may rewrite an earlier entry's
output); a file none of whose content contains any mapping key is left
unchanged and not rewritten, a file containing some mapping key is marked
modified (rewritten), and the spec's own example — one mapping entry whose
key occurs twice — replaces both occurrences and marks the file
modified. -/
theorem relocate_in_content_spec (mapping : List (Str × Str)) (content : Str) :
    ((∀ kv ∈ mapping, isSub kv.1 content = false) →
        relocate_in_content mapping content = (content, false)) ∧
    ((∃ kv ∈ mapping, isSub kv.1 content = true) →
        (relocate_in_content mapping content).2 = true) ∧
    relocate_in_content
        [("docker.io/library/nginx:1.25".toList, "harbor.local/proj/nginx:1.25".toList)]
        "image: docker.io/library/nginx:1.25\nalso: docker.io/library/nginx:1.25\n".toList
      = ("image: harbor.local/proj/nginx:1.25\nalso: harbor.local/proj/nginx:1.25\n".toList,
          true) := by
  refine ⟨fun h => relocate_foldl_nokey mapping content h,
    fun h => relocate_foldl_somekey mapping content h, by decide⟩

/-- C5 amended witness: a file without the key is untouched; a file with the
key is marked modified. -/
theorem relocate_in_content_spec_witness :
    relocate_in_content [("x".toList, "y".toList)] "ab".toList = ("ab".toList, false) ∧
    (relocate_in_content [("x".toList, "y".toList)] "ax".toList).2 = true :=
  ⟨(relocate_in_content_spec [("x".toList, "y".toList)] "ab".toList).1 (by decide),
   (relocate_in_content_spec [("x".toList, "y".toList)] "ax".toList).2.1
     ⟨("x".toList, "y".toList), by decide, by decide⟩⟩

/-- C6: during packaging with image embedding, a failed pull of one image is
skipped: the manifest image list (written before the pull loop) still equals
the chart's full image list and so lists the failed image, no archive is
saved for the failed image's reference, and every other image whose pull
succeeds still gets its archive (packaging continues). -/
theorem create_bundle_pull_failure (dockerAvail : Bool) (pullOk : Str → Bool)
    (chart : ChartInfo) (img : ImageInfo)
    (hmem : img ∈ chart.images) (hfail : pullOk img.full_reference = false) :
    (create_bundle dockerAvail pullOk chart true).manifestImages = chart.images ∧
    img ∈ (create_bundle dockerAvail pullOk chart true).manifestImages ∧
    (∀ e ∈ (create_bundle dockerAvail pullOk chart true).archives,
        e.1 ≠ img.full_reference) ∧
    (dockerAvail = true → ∀ img2 ∈ chart.images, pullOk img2.full_reference = true →
        (img2.full_reference, sanitize_filename img2.full_reference)
          ∈ (create_bundle dockerAvail pullOk chart true).archives) := by
  have hne : chart.images ≠ [] := List.ne_nil_of_mem hmem
  have harch : (create_bundle dockerAvail pullOk chart true).archives
      = pull_and_save_images dockerAvail pullOk chart.images := by
    simp [create_bundle, hne]
  refine ⟨rfl, hmem, ?_, ?_⟩
  · intro e he
    rw [harch] at he
    cases dockerAvail with
    | false =>
      rw [show pull_and_save_images false pullOk chart.images = [] from rfl] at he
      cases he
    | true =>
      obtain ⟨a, ha, hfa⟩ := List.mem_filterMap.mp
        (show e ∈ chart.images.filterMap (fun i =>
            if pullOk i.full_reference then
              some (i.full_reference, sanitize_filename i.full_reference)
            else none) from he)
      by_cases hok : pullOk a.full_reference = true
      · rw [if_pos hok] at hfa
        injection hfa with hfa'
        intro hcon
        rw [← hfa'] at hcon
        have hcon' : a.full_reference = img.full_reference := hcon
        rw [hcon'] at hok
        rw [hok] at hfail
        cases hfail
      · rw [if_neg hok] at hfa
        cases hfa
  · intro hd img2 hmem2 hok2
    rw [harch, hd]
    show (img2.full_reference, sanitize_filename img2.full_reference)
        ∈ chart.images.filterMap (fun i =>
          if pullOk i.full_reference then
            some (i.full_reference, sanitize_filename i.full_reference)
          else none)
    exact List.mem_filterMap.mpr ⟨img2, hmem2, by rw [if_pos hok2]⟩

/-- C6 witness: in a two-image chart where only `imgB` pulls successfully,
the manifest still lists both images, no archive exists for `imgA`'s
reference, and `imgB`'s archive is present. -/
theorem create_bundle_pull_failure_witness :
    (create_bundle true pullOkW chartW true).manifestImages = chartW.images ∧
    imgA ∈ (create_bundle true pullOkW chartW true).manifestImages ∧
    (∀ e ∈ (create_bundle true pullOkW chartW true).archives,
        e.1 ≠ imgA.full_reference) ∧
    (true = true → ∀ img2 ∈ chartW.images, pullOkW img2.full_reference = true →
        (img2.full_reference, sanitize_filename img2.full_reference)
          ∈ (create_bundle true pullOkW chartW true).archives) :=
  create_bundle_pull_failure true pullOkW chartW imgA (by decide) (by decide)

/-- C7: when the registry login fails during bundle import,
`_import_images` returns early — no image is pushed, no exception
propagates (the login exception is caught) — and `import_bundle` still runs
`_import_chart`, so with the bundle's chart directory present the chart
relocation and the chart push step still execute. -/
theorem import_bundle_login_failure (dockerAvail imagesDirExists : Bool)
    (archiveExists : Str → Bool) (host proj : Str) (imgs : List Str) :
    (import_bundle_model dockerAvail imagesDirExists false true archiveExists
        host proj imgs).pushed = [] ∧
    (import_bundle_model dockerAvail imagesDirExists false true archiveExists
        host proj imgs).relocated = true ∧
    (import_bundle_model dockerAvail imagesDirExists false true archiveExists
        host proj imgs).chartPushAttempted = true := by
  refine ⟨?_, rfl, rfl⟩
  cases dockerAvail <;> cases imagesDirExists <;>
    simp [import_bundle_model, import_images_step]

/-- C10: a non-empty single-segment reference (no `/`) containing a `.` or a
`:` — e.g. the bare `nginx:1.25` — is rejected by `_parse_image_reference`:
the whole string is classified as a registry host, the repository-part list
comes out empty, and the parser returns `None`. -/
theorem parse_rejects_bare_single_segment (s cs : Str)
    (hne : s ≠ []) (hslash : '/' ∉ s) (hdot : '.' ∈ s ∨ ':' ∈ s) :
    parse_image_reference s cs = none := by
  have hbr : '.' ∈ clean s ∨ ':' ∈ clean s := by
    rcases hdot with h | h
    · exact Or.inl (mem_clean_of_mem '.' s (by decide) h)
    · exact Or.inr (mem_clean_of_mem ':' s (by decide) h)
  have hslash' : '/' ∉ clean s := fun hm => hslash (mem_of_mem_clean '/' s hm)
  have hsplit : splitSep '/' (clean s) = [clean s] :=
    splitSep_of_not_mem '/' (clean s) hslash'
  have hreg : registryAndParts (splitSep '/' (clean s)) = (clean s, []) := by
    rw [hsplit]
    simp only [registryAndParts]
    rw [if_pos hbr]
  simp only [parse_image_reference]
  split_ifs with hA hB
  · rfl
  · rfl
  · rw [hreg]

/-- C10 witness: the common bare reference `nginx:1.25` is rejected. -/
theorem parse_rejects_bare_single_segment_witness :
    parse_image_reference "nginx:1.25".toList "c".toList = none :=
  parse_rejects_bare_single_segment "nginx:1.25".toList "c".toList
    (by decide) (by decide) (by decide)

/-- C8: for an input already in cleaned form, free of template placeholders,
with at least two `/`-segments, first segment recognized as a registry
(contains `.` or `:`) and final segment carrying an explicit tag, parsing
succeeds and reconstructing `registry ++ "/" ++ repository ++ ":" ++ tag`
reproduces the input byte-for-byte; `fullReference` is the input itself. -/
theorem parse_image_reference_roundtrip (s cs p0 : Str) (rest : List Str)
    (hclean : clean s = s)
    (hnb1 : isSub LBRACE2 s = false) (hnb2 : isSub RBRACE2 s = false)
    (hsplit : splitSep '/' s = p0 :: rest)
    (hrest : rest ≠ [])
    (hreg : '.' ∈ p0 ∨ ':' ∈ p0)
    (htag : ':' ∈ rest.getLast hrest) :
    ∃ info, parse_image_reference s cs = some info ∧
      info.registry ++ '/' :: info.repository ++ ':' :: info.tag = s ∧
      info.full_reference = s ∧ info.registry = p0 := by
  -- the input is non-empty, so the emptiness checks fail
  have hsne : s ≠ [] := by
    intro h
    rw [h] at hsplit
    simp only [splitSep] at hsplit
    injection hsplit with h1 h2
    rw [← h2] at hrest
    exact hrest rfl
  have hEmpty : s.isEmpty = false := by
    cases s with
    | nil => exact absurd rfl hsne
    | cons a l => rfl
  have hpre : isPre LBRACE2 s = false := by
    cases hp : isPre LBRACE2 s
    · rfl
    · have := isSub_of_isPre LBRACE2 s hp
      rw [this] at hnb1
      cases hnb1
  obtain ⟨r0, rtl, hr⟩ : ∃ r0 rtl, rest = r0 :: rtl := by
    cases rest with
    | nil => exact absurd rfl hrest
    | cons r0 rtl => exact ⟨r0, rtl, rfl⟩
  subst hr
  -- reduce the parser along the hypotheses
  simp only [parse_image_reference, hclean, hsplit]
  rw [if_neg (by simp [hEmpty, hpre]), if_neg (by simp [hEmpty, hnb1, hnb2])]
  simp only [registryAndParts]
  rw [if_pos hreg]
  refine ⟨_, rfl, ?_, rfl, rfl⟩
  -- the reconstruction
  have htag' : ':' ∈ (r0 :: rtl).getLast (List.cons_ne_nil r0 rtl) := htag
  rw [if_pos htag']
  have hrs := rsplit1_spec ':' ((r0 :: rtl).getLast (List.cons_ne_nil r0 rtl)) htag'
  have hjl := joinSep_append_last '/' ((r0 :: rtl).dropLast)
    (rsplit1 ':' ((r0 :: rtl).getLast (List.cons_ne_nil r0 rtl))).1
    (':' :: (rsplit1 ':' ((r0 :: rtl).getLast (List.cons_ne_nil r0 rtl))).2)
  rw [hrs] at hjl
  have hdl : (r0 :: rtl).dropLast ++ [(r0 :: rtl).getLast (List.cons_ne_nil r0 rtl)]
      = r0 :: rtl := List.dropLast_append_getLast (List.cons_ne_nil r0 rtl)
  rw [hdl] at hjl
  have hjs : joinSep '/' (p0 :: r0 :: rtl) = s := by
    rw [← hsplit]
    exact joinSep_splitSep '/' s
  calc p0 ++ '/' :: joinSep '/' ((r0 :: rtl).dropLast
          ++ [(rsplit1 ':' ((r0 :: rtl).getLast (List.cons_ne_nil r0 rtl))).1])
        ++ ':' :: (rsplit1 ':' ((r0 :: rtl).getLast (List.cons_ne_nil r0 rtl))).2
      = p0 ++ '/' :: (joinSep '/' ((r0 :: rtl).dropLast
          ++ [(rsplit1 ':' ((r0 :: rtl).getLast (List.cons_ne_nil r0 rtl))).1])
          ++ ':' :: (rsplit1 ':' ((r0 :: rtl).getLast (List.cons_ne_nil r0 rtl))).2) := by
        simp [List.append_assoc]
    _ = p0 ++ '/' :: joinSep '/' (r0 :: rtl) := by rw [hjl]
    _ = joinSep '/' (p0 :: r0 :: rtl) := rfl
    _ = s := hjs

/-- C8 witness: `example.com/a/b:1.0` parses and reconstructs to itself. -/
theorem parse_image_reference_roundtrip_witness :
    ∃ info, parse_image_reference "example.com/a/b:1.0".toList "c".toList = some info ∧
      info.registry ++ '/' :: info.repository ++ ':' :: info.tag
        = "example.com/a/b:1.0".toList ∧
      info.full_reference = "example.com/a/b:1.0".toList ∧
      info.registry = "example.com".toList :=
  parse_image_reference_roundtrip "example.com/a/b:1.0".toList "c".toList
    "example.com".toList ["a".toList, "b:1.0".toList]
    (by decide) (by decide) (by decide) (by decide) (by decide) (by decide) (by decide)

/-- C9: `_parse_image_reference` is total (the embedding returns an Option,
never an error) and returns `None` exactly when the input is empty after
trimming, contains the template-placeholder delimiters anywhere, or leaves
an empty repository-part list after the registry segment is removed;
otherwise it returns a parsed reference. -/
theorem parse_image_reference_none_iff (s cs : Str) :
    parse_image_reference s cs = none ↔
      (clean s = [] ∨ isSub LBRACE2 s = true ∨ isSub RBRACE2 s = true ∨
        repoPartsOf s = []) := by
  have hL : ∀ c ∈ LBRACE2, isWs c = false ∧ isQuote c = false := by decide
  have hR : ∀ c ∈ RBRACE2, isWs c = false ∧ isQuote c = false := by decide
  simp only [parse_image_reference]
  split_ifs with hA hB
  · refine iff_of_true rfl ?_
    rcases (Bool.or_eq_true _ _).mp hA with hE | hP
    · left
      have hs : s = [] := by
        cases s with
        | nil => rfl
        | cons a l => simp at hE
      rw [hs]
      rfl
    · exact Or.inr (Or.inl (isSub_of_isPre _ _ hP))
  · refine iff_of_true rfl ?_
    rcases (Bool.or_eq_true _ _).mp hB with hB' | hRB
    · rcases (Bool.or_eq_true _ _).mp hB' with hE | hLB
      · left
        cases hcs : clean s with
        | nil => rfl
        | cons a l => rw [hcs] at hE; simp at hE
      · exact Or.inr (Or.inl (isSub_of_isSub_clean _ _ hLB))
    · exact Or.inr (Or.inr (Or.inl (isSub_of_isSub_clean _ _ hRB)))
  · have hB' := hB
    simp only [Bool.or_eq_true, not_or, Bool.not_eq_true] at hB'
    obtain ⟨⟨hBe, hBl⟩, hBr⟩ := hB'
    cases hparts : (registryAndParts (splitSep '/' (clean s))).2 with
    | nil =>
      refine iff_of_true ?_ (Or.inr (Or.inr (Or.inr hparts)))
      rw [show registryAndParts (splitSep '/' (clean s))
          = ((registryAndParts (splitSep '/' (clean s))).1,
             (registryAndParts (splitSep '/' (clean s))).2) from rfl, hparts]
    | cons r0 rtl =>
      refine iff_of_false ?_ ?_
      · rw [show registryAndParts (splitSep '/' (clean s))
            = ((registryAndParts (splitSep '/' (clean s))).1,
               (registryAndParts (splitSep '/' (clean s))).2) from rfl, hparts]
        exact Option.some_ne_none _
      · intro hcon
        rcases hcon with h | h | h | h
        · rw [h] at hBe
          simp at hBe
        · have hc := isSub_clean LBRACE2 s hL h
          rw [hc] at hBl
          cases hBl
        · have hc := isSub_clean RBRACE2 s hR h
          rw [hc] at hBr
          cases hBr
        · rw [repoPartsOf, hparts] at h
          cases h
